import Mathlib

/-!
gocilib: the OCINumber codec (`varnum.go`).

A shallow embedding of `OCINumber.String` and `OCINumber.SetString`.

* A Go `byte` is a natural number below 256; byte arithmetic is written with an
  explicit `% 256`.
* A Go `string` is the list of its bytes.
* A Go run-time panic (index out of range) is the result `none`.
-/

namespace Gocilib

/-! ## Bytes and strings -/

/-- A Go string (or byte slice): the list of its bytes. -/
abbrev Bytes := List Nat

/-- The bytes of an ASCII string literal. -/
def ascii (s : String) : Bytes := s.toList.map Char.toNat

/-- Go `a + b` on bytes. -/
def badd (a b : Nat) : Nat := (a + b) % 256

/-- Go `a - b` on bytes (operands below 256). -/
def bsub (a b : Nat) : Nat := (a + 256 - b) % 256

/-- Go `a * b` on bytes. -/
def bmul (a b : Nat) : Nat := (a * b) % 256

/-- Go conversion `byte(x)` of an `int`. -/
def toByte (x : Int) : Nat := (x % 256).toNat

/-- Go `strings.IndexByte(s, c)`: index of the first `c` in `s`, or `-1`. -/
def indexByte : Bytes → Nat → Int
  | [], _ => -1
  | b :: s, c => if b = c then 0 else if indexByte s c < 0 then -1 else indexByte s c + 1

/-- Write `v` at index `i` of a fixed-size byte array; `none` when `i` is out of range. -/
def storeAt (a : Bytes) (i v : Nat) : Option Bytes :=
  if i < a.length then some (a.set i v) else none

/-! ## The 22-byte buffer -/

/-- Go `type OCINumber [22]byte`. -/
structure OCINumber where
  bytes : List Nat
  size_eq : bytes.length = 22
  lt_256 : ∀ b ∈ bytes, b < 256
deriving DecidableEq

namespace OCINumber

/-- The zero-valued `OCINumber` (`var n OCINumber`). -/
def zero : OCINumber := ⟨List.replicate 22 0, by simp, by simp⟩

/-- The byte at index `i` (0 outside the array; used in statements only). -/
def byte (n : OCINumber) (i : Nat) : Nat := n.bytes.getD i 0

/-- Read `n[i]`; `none` is the index-out-of-range panic. -/
def load (n : OCINumber) (i : Nat) : Option Nat := n.bytes[i]?

/-- Assign `n[i] = v`; `none` is the index-out-of-range panic. The element type is `byte`,
so the value is kept mod 256. -/
def store (n : OCINumber) (i v : Nat) : Option OCINumber :=
  if h : i < 22 then
    some ⟨n.bytes.set i (v % 256), by simp [n.size_eq], by
      intro b hb
      rcases List.mem_or_eq_of_mem_set hb with hb | hb
      · exact n.lt_256 b hb
      · subst hb; exact Nat.mod_lt _ (by decide)⟩
  else none

/-- The two digit loops of `String`:
`for j := 0; j < length; j++ { digit := ...n[j+2]...; txt[i] = '0' + digit/10;
txt[i+1] = '0' + digit%10; i += 2 }`.
The first argument counts the iterations left (`length - j`); `digitOf` is the
expression computing `digit` from `n[j+2]`. -/
def unpackLoop (n : OCINumber) (digitOf : Nat → Nat) :
    Nat → Nat → Nat → Bytes → Option (Bytes × Nat)
  | 0, _, i, txt => some (txt, i)
  | k + 1, j, i, txt => do
    let b ← n.load (j + 2)
    let digit := digitOf b
    let txt ← storeAt txt i (badd 48 (digit / 10))
    let txt ← storeAt txt (i + 1) (badd 48 (digit % 10))
    unpackLoop n digitOf k (j + 1) (i + 2) txt

/-- Go `txt[:i]` on the scratch array; `none` when `i` exceeds its size. -/
def sliceTo (txt : Bytes) (i : Nat) : Option Bytes :=
  if i ≤ txt.length then some (txt.take i) else none

/-- Go `func (n OCINumber) String() string`. The variable `exp` of the source is
computed but never read, so it is not part of the result. -/
def String (n : OCINumber) : Option Bytes := do
  let n0 ← n.load 0
  if n0 = 0xff then some []
  else
    let txt := List.replicate 42 0
    let length := n0
    let first ← n.load 1
    let positive := first / 2 ^ 7 > 0
    if positive then do
      let (txt, i) ← unpackLoop n (fun b => bsub b 1) length 0 0 txt
      sliceTo txt i
    else do
      let txt ← storeAt txt 0 45
      let (txt, i) ← unpackLoop n (fun b => bsub 101 b) length 0 1 txt
      sliceTo txt i

/-- The packing expression of the non-negative branch:
`(txt[i]-'0')*10 + txt[i+1] - '0' - 1`. -/
def packPos (hi lo : Nat) : Nat := bsub (bsub (badd (bmul (bsub hi 48) 10) lo) 48) 1

/-- The packing expression of the negative branch:
`101 - ((txt[i]-'0')*10 + txt[i+1] - '0')`. -/
def packNeg (hi lo : Nat) : Nat := bsub 101 (bsub (badd (bmul (bsub hi 48) 10) lo) 48)

/-- The two packing loops of `SetString`:
`for i := 0; i < len(txt); i += 2 { n[j] = pack(txt[i], txt[i+1]); j++ }`.
The first argument counts the iterations left. -/
def packLoop (txt : Bytes) (pack : Nat → Nat → Nat) :
    Nat → Nat → Nat → OCINumber → Option OCINumber
  | 0, _, _, n => some n
  | k + 1, i, j, n => do
    let hi ← txt[i]?
    let lo ← txt[i + 1]?
    let n ← n.store j (pack hi lo)
    packLoop txt pack k (i + 2) (j + 1) n

/-- Go `func (n *OCINumber) SetString(txt string)`, returning the buffer after the call. -/
def SetString (n : OCINumber) (txt : Bytes) : Option OCINumber :=
  if txt = [] then n.store 0 0xff
  else
    let positive := !(txt.head? == some 45)
    let txt := if positive then txt else txt.drop 1
    let idx := indexByte txt 46
    let dot : Int := if idx ≥ 0 then idx else txt.length
    let txt := if idx ≥ 0 then txt.take idx.toNat ++ txt.drop (idx.toNat + 1) else txt
    let txt := if txt.length % 2 = 1 then txt ++ [48] else txt
    if positive then do
      let n ← n.store 1 (toByte (128 + (dot + 1) / 2 + 64))
      packLoop txt packPos ((txt.length + 1) / 2) 0 2 n
    else do
      let n ← n.store 1 (toByte (255 - (dot + 1) / 2 - 64))
      packLoop txt packNeg ((txt.length + 1) / 2) 0 2 n

end OCINumber

/-! ## Vocabulary of the statements -/

/-- Bit 7 (the high-order bit) of a byte. -/
def bit7 (b : Nat) : Bool := b / 128 % 2 == 1

/-- The two characters that `String` writes for the digit value `d`. -/
def pairOf (d : Nat) : Bytes := [48 + d / 10, 48 + d % 10]

/-- The characters written by `k` iterations of a digit loop that starts at mantissa index `j`. -/
def emitted (n : OCINumber) (digitOf : Nat → Nat) : Nat → Nat → Bytes
  | 0, _ => []
  | k + 1, j =>
    badd 48 (digitOf (n.byte (j + 2)) / 10) :: badd 48 (digitOf (n.byte (j + 2)) % 10) ::
      emitted n digitOf k (j + 1)

/-- A decimal digit character `'0'`..`'9'`. -/
def isDigit (c : Nat) : Bool := decide (48 ≤ c ∧ c ≤ 57)

/-- The text after its sign: one or more digits, optionally followed by `'.'` and one or
more digits. -/
def isUnsignedDecimal (u : Bytes) : Bool :=
  match u.dropWhile isDigit with
  | [] => !u.isEmpty
  | c :: fp => !(u.takeWhile isDigit).isEmpty && c == 46 && !fp.isEmpty && fp.all isDigit

/-- Text that starts with `'-'`. -/
def isNegative (t : Bytes) : Bool := t.head? == some 45

/-- The text without its leading `'-'`, if it has one. -/
def unsignedPart (t : Bytes) : Bytes := if isNegative t then t.drop 1 else t

/-- A valid DecimalText: an optional leading `'-'`, one or more integer digits, an optional
`'.'` followed by fractional digits. -/
def isDecimalText (t : Bytes) : Bool := isUnsignedDecimal (unsignedPart t)

/-- The digit stream of a text: its digits, sign and decimal point removed. -/
def digitsOf (t : Bytes) : Bytes := t.filter isDigit

/-- The number of digits of a text. -/
def digitCount (t : Bytes) : Nat := (digitsOf t).length

/-- The number of digits before the decimal point (all digits when there is no point). -/
def intDigits (t : Bytes) : Nat := ((unsignedPart t).takeWhile isDigit).length

/-- The number of digits after the decimal point. -/
def fracDigits (t : Bytes) : Nat := ((unsignedPart t).dropWhile isDigit).length - 1

/-- A digit stream right-padded with `'0'` to even length. -/
def padEven (d : Bytes) : Bytes := if d.length % 2 = 1 then d ++ [48] else d

/-- The number denoted by a string of decimal digits. -/
def natOfDigits (ds : Bytes) : Nat := ds.foldl (fun acc c => 10 * acc + (c - 48)) 0

/-- The rational value of a DecimalText. -/
def decimalValue (t : Bytes) : ℚ :=
  (if isNegative t then -1 else 1) * (natOfDigits (digitsOf t) : ℚ) / 10 ^ fracDigits t

/-- The format's reading of a number:
`(number) = (sign) 0.(mantissa100) * 100**(exponent100)`. -/
def numberValue (positive : Bool) (exponent100 : Int) (mantissa100 : List Nat) : ℚ :=
  (if positive then 1 else -1)
    * ((mantissa100.foldl (fun acc d => 100 * acc + d) 0 : Nat) : ℚ) / 100 ^ mantissa100.length
    * 100 ^ exponent100

/-- The base-100 digits that `SetString` packed into the first `len` mantissa bytes: the
inverse of its own bias (`digit - 1` when non-negative, `101 - digit` when negative). -/
def packedDigits (m : OCINumber) (positive : Bool) (len : Nat) : List Nat :=
  (List.range len).map
    (fun k => if positive then badd (m.byte (2 + k)) 1 else bsub 101 (m.byte (2 + k)))

/-- The base-100 digits of the first `len` mantissa bytes as `String` and the format
comment of the source read them: `byte - 1` when non-negative, `101 - byte` when negative. -/
def storedDigits (m : OCINumber) (positive : Bool) (len : Nat) : List Nat :=
  (List.range len).map
    (fun k => if positive then bsub (m.byte (2 + k)) 1 else bsub 101 (m.byte (2 + k)))

/-- The base-100 exponent that `SetString` stored in byte 1: `(dot+1)/2`, recovered from
`128 + (dot+1)/2 + 64` when non-negative and from `255 - (dot+1)/2 - 64` when negative. -/
def packedExponent (m : OCINumber) (positive : Bool) : Int :=
  if positive then (m.byte 1 : Int) - 128 - 64 else 255 - 64 - (m.byte 1 : Int)

/-- The value that a buffer written by `SetString` denotes when its first `len` mantissa
bytes are read in the format's sense. -/
def packedValue (m : OCINumber) (positive : Bool) (len : Nat) : ℚ :=
  numberValue positive (packedExponent m positive) (packedDigits m positive len)

/-- The text of a decimal number with the given sign, integer digits and fractional digits
(no decimal point when there are no fractional digits). -/
def render (neg : Bool) (ip fp : Bytes) : Bytes :=
  (if neg then [45] else []) ++ ip ++ (if fp = [] then [] else 46 :: fp)

/-- A buffer whose bytes are given by the first 22 entries of `l` (taken mod 256),
zero-filled when `l` is shorter. -/
def OCINumber.ofList (l : List Nat) : OCINumber :=
  ⟨(List.range 22).map (fun i => l.getD i 0 % 256), by simp, by
    intro b hb
    simp only [List.mem_map] at hb
    obtain ⟨i, _, rfl⟩ := hb
    exact Nat.mod_lt _ (by decide)⟩

/-- The text left after stripping one leading `'-'` and the first `'.'`. -/
def stripText (s : Bytes) : Bytes := (unsignedPart s).erase 46

/-! ## Durations (`bind.go`) -/

/-- Go `int64` arithmetic: the result of an operation wraps around to the range
`-2^63 .. 2^63 - 1`. -/
def wrap64 (x : Int) : Int := (x + 9223372036854775808) % 18446744073709551616 - 9223372036854775808

/-- Go `time.Millisecond`, in nanoseconds. -/
def time.Millisecond : Int := 1000000

/-- Go `time.Second`, in nanoseconds. -/
def time.Second : Int := 1000 * time.Millisecond

/-- Go `time.Minute`, in nanoseconds. -/
def time.Minute : Int := 60 * time.Second

/-- Go `time.Hour`, in nanoseconds. -/
def time.Hour : Int := 60 * time.Minute

/-- Go `func durationAsDays(d time.Duration) (days, hours, minutes, seconds, milliseconds int)`.
A `time.Duration` is an `int64` count of nanoseconds; `int` is 64 bits wide; `/` is Go's
division truncated toward zero. -/
def durationAsDays (d : Int) : Int × Int × Int × Int × Int :=
  let ns := d
  let days := (ns.tdiv time.Hour).tdiv 24
  let ns := wrap64 (ns - wrap64 (wrap64 (days * time.Hour) * 240))
  let hours := ns.tdiv time.Hour
  let ns := wrap64 (ns - wrap64 (hours * time.Hour))
  let minutes := ns.tdiv time.Minute
  let ns := wrap64 (ns - wrap64 (minutes * time.Minute))
  let seconds := ns.tdiv time.Second
  let ns := wrap64 (ns - wrap64 (seconds * time.Second))
  let milliseconds := ns.tdiv time.Millisecond
  (days, hours, minutes, seconds, milliseconds)

/-- The duration, in nanoseconds, that the components returned by `durationAsDays` add up
to: `days*24h + hours*1h + minutes*1min + seconds*1s + milliseconds*1ms`. -/
def componentsTotal (c : Int × Int × Int × Int × Int) : Int :=
  c.1 * 24 * time.Hour + c.2.1 * time.Hour + c.2.2.1 * time.Minute + c.2.2.2.1 * time.Second
    + c.2.2.2.2 * time.Millisecond

/-- A duration truncated toward zero to a whole millisecond. -/
def truncMillisecond (d : Int) : Int := d.tdiv time.Millisecond * time.Millisecond

/-- How a call of `String()` can end. Its Go signature is
`func (n OCINumber) String() string`: there is no error result, so a call either returns a
string or stops with a run-time panic. `decodeError` stands for the typed DecodeError
(CorruptBuffer) of the specification, handed back to the caller. -/
inductive Outcome where
  | returned (s : Bytes)
  | decodeError
  | panicked
deriving DecidableEq

/-- The way a call of `String()` ends: with the returned string, or with the
index-out-of-range panic. No path of the source produces a typed error. -/
def OCINumber.StringOutcome (n : OCINumber) : Outcome :=
  match n.String with
  | some s => Outcome.returned s
  | none => Outcome.panicked

/-! ## Basic facts about the buffer -/

theorem byte_lt (n : OCINumber) (i : Nat) : n.byte i < 256 := by
  unfold OCINumber.byte
  rw [List.getD_eq_getElem?_getD]
  cases h : n.bytes[i]? with
  | none => simp
  | some b => exact n.lt_256 b (List.getElem?_mem h)

theorem load_of_lt (n : OCINumber) {i : Nat} (h : i < 22) : n.load i = some (n.byte i) := by
  have h2 : i < n.bytes.length := by rw [n.size_eq]; exact h
  simp [OCINumber.load, OCINumber.byte, List.getD_eq_getElem?_getD, List.getElem?_eq_getElem h2]

theorem load_of_ge (n : OCINumber) {i : Nat} (h : 22 ≤ i) : n.load i = none := by
  have h2 : n.bytes.length ≤ i := by rw [n.size_eq]; exact h
  simp [OCINumber.load, h2]

theorem store_of_ge (n : OCINumber) {i : Nat} (v : Nat) (h : 22 ≤ i) : n.store i v = none := by
  simp [OCINumber.store]; omega

theorem store_of_lt (n : OCINumber) {i : Nat} (v : Nat) (h : i < 22) :
    ∃ m, n.store i v = some m ∧ ∀ x, m.byte x = if x = i then v % 256 else n.byte x := by
  have h2 : i < n.bytes.length := by rw [n.size_eq]; exact h
  refine ⟨_, by simp only [OCINumber.store, dif_pos h]; rfl, ?_⟩
  intro x
  simp only [OCINumber.byte, List.getD_eq_getElem?_getD, List.getElem?_set]
  by_cases hx : x = i
  · subst hx; simp [h2]
  · have : ¬ i = x := fun e => hx e.symm
    simp [hx, this]

/-! ## The digit loops of `String` -/

theorem take_set_set (i a b : Nat) : ∀ txt : Bytes, i + 1 < txt.length →
    ((txt.set i a).set (i + 1) b).take (i + 2) = txt.take i ++ [a, b] := by
  induction i with
  | zero =>
    intro txt h
    match txt, h with
    | _ :: _ :: _, _ => simp
  | succ i ih =>
    intro txt h
    match txt, h with
    | x :: rest, h =>
      have h2 : i + 1 < rest.length := by simpa using h
      simpa using ih rest h2

theorem unpackLoop_ok (n : OCINumber) (f : Nat → Nat) : ∀ (k j i : Nat) (txt : Bytes),
    j + k ≤ 20 → i + 2 * k ≤ txt.length →
    ∃ out, OCINumber.unpackLoop n f k j i txt = some (out, i + 2 * k) ∧
      out.length = txt.length ∧ out.take (i + 2 * k) = txt.take i ++ emitted n f k j := by
  intro k
  induction k with
  | zero => intro j i txt _ _; exact ⟨txt, by simp [OCINumber.unpackLoop, emitted]⟩
  | succ k ih =>
    intro j i txt hj hi
    have h1 : i < txt.length := by omega
    have h2 : i + 1 < txt.length := by omega
    obtain ⟨out, ho, hl, ht⟩ := ih (j + 1) (i + 2)
      ((txt.set i (badd 48 (f (n.byte (j + 2)) / 10))).set (i + 1)
        (badd 48 (f (n.byte (j + 2)) % 10))) (by omega) (by simp; omega)
    refine ⟨out, ?_, by simpa using hl, ?_⟩
    · simp only [OCINumber.unpackLoop, load_of_lt n (show j + 2 < 22 by omega), storeAt,
        Option.bind_eq_bind, Option.some_bind, if_pos h1, List.length_set, if_pos h2]
      rw [ho]; congr 2; omega
    · have e : i + 2 * (k + 1) = i + 2 + 2 * k := by omega
      rw [e, ht, take_set_set i _ _ txt h2]
      simp [emitted]

theorem unpackLoop_fail (n : OCINumber) (f : Nat → Nat) : ∀ (k j i : Nat) (txt : Bytes),
    20 < j + k → 0 < k → OCINumber.unpackLoop n f k j i txt = none := by
  intro k
  induction k with
  | zero => intro j i txt _ h; omega
  | succ k ih =>
    intro j i txt hj _
    by_cases hlt : j + 2 < 22
    · simp only [OCINumber.unpackLoop, load_of_lt n hlt, Option.bind_eq_bind, Option.some_bind]
      cases storeAt txt i (badd 48 (f (n.byte (j + 2)) / 10)) with
      | none => rfl
      | some t1 =>
        simp only [Option.some_bind]
        cases storeAt t1 (i + 1) (badd 48 (f (n.byte (j + 2)) % 10)) with
        | none => rfl
        | some t2 => exact ih (j + 1) (i + 2) t2 (by omega) (by omega)
    · simp [OCINumber.unpackLoop, load_of_ge n (show 22 ≤ j + 2 by omega)]

theorem String_eq (n : OCINumber) : n.String =
    if n.byte 0 = 255 then some []
    else if 128 ≤ n.byte 1 then
      (OCINumber.unpackLoop n (fun b => bsub b 1) (n.byte 0) 0 0 (List.replicate 42 0)).bind
        (fun p => OCINumber.sliceTo p.1 p.2)
    else
      (OCINumber.unpackLoop n (fun b => bsub 101 b) (n.byte 0) 0 1
        ((List.replicate 42 0).set 0 45)).bind (fun p => OCINumber.sliceTo p.1 p.2) := by
  have hb : n.byte 1 / 2 ^ 7 > 0 ↔ 128 ≤ n.byte 1 := by
    constructor <;> intro h <;> omega
  simp only [OCINumber.String, load_of_lt n (show 0 < 22 by decide),
    load_of_lt n (show 1 < 22 by decide), Option.bind_eq_bind, Option.some_bind, hb, storeAt]
  split
  · rfl
  · split
    · rfl
    · simp

theorem bit7_iff (n : OCINumber) (i : Nat) : bit7 (n.byte i) = true ↔ 128 ≤ n.byte i := by
  have := byte_lt n i
  simp only [bit7, beq_iff_eq]
  omega

theorem bit7_false_iff (n : OCINumber) (i : Nat) : bit7 (n.byte i) = false ↔ n.byte i < 128 := by
  have h := bit7_iff n i
  cases hb : bit7 (n.byte i) <;> simp [hb] at h ⊢ <;> omega

theorem emitted_eq (n : OCINumber) (f : Nat → Nat) (hf : ∀ b, f b < 256) : ∀ k j,
    emitted n f k j = (List.range k).flatMap (fun m => pairOf (f (n.byte (2 + (j + m))))) := by
  intro k
  induction k with
  | zero => intro j; simp [emitted]
  | succ k ih =>
    intro j
    have h := hf (n.byte (j + 2))
    have e1 : badd 48 (f (n.byte (j + 2)) / 10) = 48 + f (n.byte (j + 2)) / 10 := by
      unfold badd; omega
    have e2 : badd 48 (f (n.byte (j + 2)) % 10) = 48 + f (n.byte (j + 2)) % 10 := by
      unfold badd; omega
    have e3 : ∀ m, 2 + (j + 1 + m) = 2 + (j + (m + 1)) := by intro m; omega
    simp only [emitted, ih, List.range_succ_eq_map, List.flatMap_cons, List.flatMap_map, e1, e2,
      pairOf, Nat.add_zero, Nat.add_comm 2 j, e3, List.cons_append, List.nil_append,
      Function.comp_def, Nat.succ_eq_add_one]

theorem bsub_lt (a b : Nat) : bsub a b < 256 := Nat.mod_lt _ (by decide)

theorem String_positive (n : OCINumber) (h0 : n.byte 0 ≤ 20) (h1 : 128 ≤ n.byte 1) :
    n.String = some ((List.range (n.byte 0)).flatMap
      (fun k => pairOf (bsub (n.byte (2 + k)) 1))) := by
  obtain ⟨out, ho, hl, ht⟩ := unpackLoop_ok n (fun b => bsub b 1) (n.byte 0) 0 0
    (List.replicate 42 0) (by omega) (by simp; omega)
  have hs : 2 * n.byte 0 ≤ out.length := by rw [hl]; simp; omega
  rw [String_eq, if_neg (by omega), if_pos h1, ho]
  simp only [Option.some_bind, OCINumber.sliceTo, Nat.zero_add, if_pos hs]
  rw [Nat.zero_add] at ht
  rw [ht, emitted_eq n _ (fun b => bsub_lt b 1)]
  simp

theorem String_negative (n : OCINumber) (h0 : n.byte 0 ≤ 20) (h1 : n.byte 1 < 128) :
    n.String = some (45 :: (List.range (n.byte 0)).flatMap
      (fun k => pairOf (bsub 101 (n.byte (2 + k))))) := by
  obtain ⟨out, ho, hl, ht⟩ := unpackLoop_ok n (fun b => bsub 101 b) (n.byte 0) 0 1
    ((List.replicate 42 0).set 0 45) (by omega) (by simp; omega)
  have hs : 1 + 2 * n.byte 0 ≤ out.length := by rw [hl]; simp; omega
  rw [String_eq, if_neg (by omega), if_neg (by omega), ho]
  simp only [Option.some_bind, OCINumber.sliceTo, if_pos hs]
  rw [ht, emitted_eq n _ (fun b => bsub_lt 101 b)]
  simp [List.replicate_succ]

theorem String_corrupt (n : OCINumber) (h0 : 21 ≤ n.byte 0) (h1 : n.byte 0 ≤ 254) :
    n.String = none := by
  rw [String_eq, if_neg (by omega)]
  split <;> rw [unpackLoop_fail n _ (n.byte 0) 0 _ _ (by omega) (by omega)] <;> rfl

/-! ## The shape of a valid DecimalText -/

theorem indexByte_absent (c : Nat) : ∀ l : Bytes, c ∉ l → indexByte l c = -1 := by
  intro l
  induction l with
  | nil => intro _; rfl
  | cons b l ih =>
    intro h
    have hb : ¬ b = c := fun e => h (by simp [e])
    have hl : c ∉ l := fun e => h (by simp [e])
    simp [indexByte, hb, ih hl]

theorem indexByte_append (c : Nat) (r : Bytes) : ∀ l : Bytes, c ∉ l →
    indexByte (l ++ c :: r) c = l.length := by
  intro l
  induction l with
  | nil => intro _; simp [indexByte]
  | cons b l ih =>
    intro h
    have hb : ¬ b = c := fun e => h (by simp [e])
    have hl : c ∉ l := fun e => h (by simp [e])
    have h0 : ¬ ((l.length : Int) < 0) := by omega
    simp [indexByte, hb, ih hl, h0]

theorem not_digit_45 : isDigit 45 = false := by decide

theorem not_digit_46 : isDigit 46 = false := by decide

theorem dot_not_mem (l : Bytes) (h : ∀ c ∈ l, isDigit c = true) : 46 ∉ l := by
  intro hm
  have := h 46 hm
  rw [not_digit_46] at this
  exact Bool.noConfusion this

theorem unsigned_shape (u : Bytes) (h : isUnsignedDecimal u = true) :
    ∃ ip fp : Bytes, ip ≠ [] ∧ (∀ c ∈ ip, isDigit c = true) ∧ (∀ c ∈ fp, isDigit c = true) ∧
      (u = ip ∧ fp = [] ∨ fp ≠ [] ∧ u = ip ++ 46 :: fp) := by
  have hsplit := List.takeWhile_append_dropWhile isDigit u
  have hip : ∀ c ∈ u.takeWhile isDigit, isDigit c = true := fun c hc => List.mem_takeWhile_imp hc
  unfold isUnsignedDecimal at h
  cases hd : u.dropWhile isDigit with
  | nil =>
    rw [hd] at h hsplit
    simp only [List.append_nil] at hsplit
    refine ⟨u, [], ?_, ?_, by simp, Or.inl ⟨rfl, rfl⟩⟩
    · intro e; simp [e] at h
    · intro c hc; rw [← hsplit] at hc; exact hip c hc
  | cons c fp =>
    rw [hd] at h hsplit
    simp only [Bool.and_eq_true, Bool.not_eq_true', List.isEmpty_eq_false, beq_iff_eq,
      List.all_eq_true] at h
    obtain ⟨⟨⟨h1, h2⟩, h3⟩, h4⟩ := h
    subst h2
    refine ⟨u.takeWhile isDigit, fp, ?_, hip, h4, Or.inr ⟨?_, hsplit.symm⟩⟩
    · intro e; simp [e] at h1
    · intro e; simp [e] at h3

theorem decimalText_shape (t : Bytes) (h : isDecimalText t = true) :
    ∃ ip fp : Bytes, ip ≠ [] ∧ (∀ c ∈ ip, isDigit c = true) ∧ (∀ c ∈ fp, isDigit c = true) ∧
      t = render (isNegative t) ip fp := by
  obtain ⟨ip, fp, h1, h2, h3, h4⟩ := unsigned_shape _ h
  refine ⟨ip, fp, h1, h2, h3, ?_⟩
  have hu : unsignedPart t = ip ++ (if fp = [] then [] else 46 :: fp) := by
    rcases h4 with ⟨e1, e2⟩ | ⟨e1, e2⟩
    · simp [e1, e2]
    · simp [e1, e2]
  unfold render
  rw [List.append_assoc, ← hu]
  unfold unsignedPart
  cases hn : isNegative t with
  | false => simp
  | true =>
    unfold isNegative at hn
    match t, hn with
    | c :: rest, hn =>
      simp only [List.head?_cons, beq_iff_eq, Option.some.injEq] at hn
      simp [hn]

theorem head_not_45 (ip rest : Bytes) (h1 : ip ≠ []) (h2 : ∀ c ∈ ip, isDigit c = true) :
    isNegative (ip ++ rest) = false := by
  match ip, h1, h2 with
  | c :: ip, _, h2 =>
    have hc := h2 c (by simp)
    have : ¬ c = 45 := by
      intro e; rw [e, not_digit_45] at hc; exact Bool.noConfusion hc
    simp [isNegative, this]

theorem isNegative_render (neg : Bool) (ip fp : Bytes) (h1 : ip ≠ [])
    (h2 : ∀ c ∈ ip, isDigit c = true) : isNegative (render neg ip fp) = neg := by
  cases neg with
  | true => simp [render, isNegative]
  | false =>
    simp only [render, Bool.false_eq_true, if_false, List.nil_append]
    exact head_not_45 ip _ h1 h2

theorem unsignedPart_render (neg : Bool) (ip fp : Bytes) (h1 : ip ≠ [])
    (h2 : ∀ c ∈ ip, isDigit c = true) :
    unsignedPart (render neg ip fp) = ip ++ (if fp = [] then [] else 46 :: fp) := by
  unfold unsignedPart
  rw [isNegative_render neg ip fp h1 h2]
  cases neg <;> simp [render]

theorem intDigits_render (neg : Bool) (ip fp : Bytes) (h1 : ip ≠ [])
    (h2 : ∀ c ∈ ip, isDigit c = true) : intDigits (render neg ip fp) = ip.length := by
  unfold intDigits
  rw [unsignedPart_render neg ip fp h1 h2, List.takeWhile_append_of_pos h2]
  by_cases hf : fp = []
  · simp [hf]
  · simp [hf, List.takeWhile_cons, not_digit_46]

theorem fracDigits_render (neg : Bool) (ip fp : Bytes) (h1 : ip ≠ [])
    (h2 : ∀ c ∈ ip, isDigit c = true) : fracDigits (render neg ip fp) = fp.length := by
  unfold fracDigits
  rw [unsignedPart_render neg ip fp h1 h2, List.dropWhile_append_of_pos h2]
  by_cases hf : fp = []
  · simp [hf]
  · simp [hf, List.dropWhile_cons, not_digit_46]

theorem digitsOf_render (neg : Bool) (ip fp : Bytes) (h2 : ∀ c ∈ ip, isDigit c = true)
    (h3 : ∀ c ∈ fp, isDigit c = true) : digitsOf (render neg ip fp) = ip ++ fp := by
  have e2 : ip.filter isDigit = ip := List.filter_eq_self.2 h2
  have e3 : fp.filter isDigit = fp := List.filter_eq_self.2 h3
  unfold digitsOf render
  by_cases hf : fp = []
  · cases neg <;> simp [hf, e2, not_digit_45]
  · cases neg <;> simp [hf, e2, e3, not_digit_45, not_digit_46]

theorem SetString_render (n : OCINumber) (neg : Bool) (ip fp : Bytes) (h1 : ip ≠ [])
    (h2 : ∀ c ∈ ip, isDigit c = true) (h3 : ∀ c ∈ fp, isDigit c = true) :
    n.SetString (render neg ip fp) =
      (n.store 1 (if neg then toByte (255 - ((ip.length : Int) + 1) / 2 - 64)
        else toByte (128 + ((ip.length : Int) + 1) / 2 + 64))).bind
      (fun m => OCINumber.packLoop (padEven (ip ++ fp)) (if neg then OCINumber.packNeg
        else OCINumber.packPos) (((padEven (ip ++ fp)).length + 1) / 2) 0 2 m) := by
  have hne : render neg ip fp ≠ [] := by
    cases neg <;> simp [render, h1]
  have hneg : ((render neg ip fp).head? == some 45) = neg := isNegative_render neg ip fp h1 h2
  have hu : (if (!neg) = true then render neg ip fp else (render neg ip fp).drop 1)
      = ip ++ (if fp = [] then [] else 46 :: fp) := by
    cases neg <;> simp [render]
  unfold OCINumber.SetString
  simp only [if_neg hne, hneg, hu]
  have hidx : indexByte (ip ++ (if fp = [] then [] else 46 :: fp)) 46
      = if fp = [] then -1 else (ip.length : Int) := by
    by_cases hf : fp = []
    · simp [hf, indexByte_absent 46 ip (dot_not_mem ip h2)]
    · simp [hf, indexByte_append 46 fp ip (dot_not_mem ip h2)]
  rw [hidx]
  by_cases hf : fp = []
  · subst hf
    cases neg <;> simp [padEven]
  · have h0 : (ip.length : Int) ≥ 0 := by omega
    cases neg <;> simp [hf, h0, padEven, List.take_left, List.drop_left]

/-! ## The packing loops of `SetString` -/

theorem getElem?_getD_of_lt (P : Bytes) {i : Nat} (h : i < P.length) :
    P[i]? = some (P.getD i 0) := by
  simp [List.getD_eq_getElem?_getD, List.getElem?_eq_getElem h]

theorem packLoop_ok (P : Bytes) (pack : Nat → Nat → Nat) (hp : ∀ a b, pack a b < 256) :
    ∀ (k i j : Nat) (n : OCINumber), j + k ≤ 22 → i + 2 * k ≤ P.length →
    ∃ m, OCINumber.packLoop P pack k i j n = some m ∧
      ∀ x, m.byte x = if j ≤ x ∧ x < j + k
        then pack (P.getD (i + 2 * (x - j)) 0) (P.getD (i + 2 * (x - j) + 1) 0)
        else n.byte x := by
  intro k
  induction k with
  | zero =>
    intro i j n _ _
    refine ⟨n, rfl, ?_⟩
    intro x
    rw [if_neg (by omega)]
  | succ k ih =>
    intro i j n hj hi
    obtain ⟨m1, hs, hb1⟩ := store_of_lt n (pack (P.getD i 0) (P.getD (i + 1) 0))
      (show j < 22 by omega)
    obtain ⟨m, hm, hb⟩ := ih (i + 2) (j + 1) m1 (by omega) (by omega)
    refine ⟨m, ?_, ?_⟩
    · simp only [OCINumber.packLoop, getElem?_getD_of_lt P (show i < P.length by omega),
        getElem?_getD_of_lt P (show i + 1 < P.length by omega), Option.bind_eq_bind,
        Option.some_bind, hs, hm]
    · intro x
      rw [hb x, hb1 x, Nat.mod_eq_of_lt (hp _ _)]
      by_cases hx : x = j
      · subst hx
        rw [if_neg (by omega), if_pos rfl, if_pos (by omega)]
        simp
      · by_cases hr : j + 1 ≤ x ∧ x < j + 1 + k
        · rw [if_pos hr, if_pos (by omega)]
          have e : i + 2 + 2 * (x - (j + 1)) = i + 2 * (x - j) := by omega
          rw [e]
        · rw [if_neg hr, if_neg hx, if_neg (by omega)]

theorem padEven_even (d : Bytes) : (padEven d).length % 2 = 0 := by
  unfold padEven
  split
  · simp; omega
  · omega

theorem padEven_length_le (d : Bytes) : (padEven d).length ≤ d.length + 1 := by
  unfold padEven
  split <;> simp

theorem packPos_lt (a b : Nat) : OCINumber.packPos a b < 256 := bsub_lt _ _

theorem packNeg_lt (a b : Nat) : OCINumber.packNeg a b < 256 := bsub_lt _ _

theorem toByte_pos (d : Nat) (h : d ≤ 40) :
    toByte (128 + ((d : Int) + 1) / 2 + 64) = 128 + (d + 1) / 2 + 64 := by
  unfold toByte; omega

theorem toByte_neg (d : Nat) (h : d ≤ 40) :
    toByte (255 - ((d : Int) + 1) / 2 - 64) = 255 - (d + 1) / 2 - 64 := by
  unfold toByte; omega

/-- What `SetString` does on a valid text with at most 40 digits: it returns, and the
buffer it leaves differs from the initial one in byte 1 and the mantissa bytes only. -/
theorem SetString_render_spec (n : OCINumber) (neg : Bool) (ip fp : Bytes) (h1 : ip ≠ [])
    (h2 : ∀ c ∈ ip, isDigit c = true) (h3 : ∀ c ∈ fp, isDigit c = true)
    (hd : (ip ++ fp).length ≤ 40) :
    ∃ m, n.SetString (render neg ip fp) = some m ∧
      m.byte 0 = n.byte 0 ∧
      m.byte 1 = (if neg then 255 - (ip.length + 1) / 2 - 64
        else 128 + (ip.length + 1) / 2 + 64) ∧
      (∀ k, k < (padEven (ip ++ fp)).length / 2 →
        m.byte (2 + k) = (if neg then OCINumber.packNeg else OCINumber.packPos)
          ((padEven (ip ++ fp)).getD (2 * k) 0) ((padEven (ip ++ fp)).getD (2 * k + 1) 0)) ∧
      (∀ x, 2 + (padEven (ip ++ fp)).length / 2 ≤ x → m.byte x = n.byte x) := by
  have hev := padEven_even (ip ++ fp)
  have hle := padEven_length_le (ip ++ fp)
  have hip : ip.length ≤ 40 := by simp at hd; omega
  obtain ⟨m1, hs, hb1⟩ := store_of_lt n (if neg then toByte (255 - ((ip.length : Int) + 1) / 2 - 64)
        else toByte (128 + ((ip.length : Int) + 1) / 2 + 64)) (show 1 < 22 by decide)
  obtain ⟨m, hm, hb⟩ := packLoop_ok (padEven (ip ++ fp))
    (if neg then OCINumber.packNeg else OCINumber.packPos)
    (by intro a b; cases neg <;> simp [packPos_lt, packNeg_lt])
    (((padEven (ip ++ fp)).length + 1) / 2) 0 2 m1 (by omega) (by omega)
  have hk : ((padEven (ip ++ fp)).length + 1) / 2 = (padEven (ip ++ fp)).length / 2 := by omega
  rw [hk] at hb
  refine ⟨m, ?_, ?_, ?_, ?_, ?_⟩
  · rw [SetString_render n neg ip fp h1 h2 h3, hs, Option.some_bind, hm]
  · rw [hb 0, if_neg (by omega), hb1 0, if_neg (by decide)]
  · rw [hb 1, if_neg (by omega), hb1 1, if_pos rfl]
    cases neg with
    | true =>
      simp only [if_true]
      rw [toByte_neg _ hip]; omega
    | false =>
      simp only [Bool.false_eq_true, if_false]
      rw [toByte_pos _ hip]; omega
  · intro k hk
    rw [hb (2 + k), if_pos (by omega)]
    have e : 2 + k - 2 = k := by omega
    rw [e, Nat.zero_add]
  · intro x hx
    rw [hb x, if_neg (by omega), hb1 x, if_neg (by omega)]

/-! ## Further facts used by the claims -/

theorem flatMap_pair_length (f : Nat → Bytes) (hf : ∀ k, (f k).length = 2) :
    ∀ l : List Nat, (l.flatMap f).length = 2 * l.length := by
  intro l
  induction l with
  | nil => rfl
  | cons a l ih => simp only [List.flatMap_cons, List.length_append, hf, ih, List.length_cons]; omega

theorem mem_flatMap_range {k : Nat} {f : Nat → Bytes} {c : Nat}
    (h : c ∈ (List.range k).flatMap f) : ∃ m, m < k ∧ c ∈ f m := by
  simp only [List.mem_flatMap, List.mem_range] at h
  exact h

theorem pairOf_digit {d c : Nat} (hd : d ≤ 99) (hc : c ∈ pairOf d) : isDigit c = true := by
  simp only [pairOf, List.mem_cons, List.mem_singleton, List.not_mem_nil, or_false] at hc
  simp only [isDigit, decide_eq_true_eq]
  omega

theorem padEven_digits (d : Bytes) (h : ∀ c ∈ d, isDigit c = true) :
    ∀ c ∈ padEven d, isDigit c = true := by
  intro c hc
  unfold padEven at hc
  split at hc
  · rcases List.mem_append.1 hc with h1 | h1
    · exact h c h1
    · simp only [List.mem_singleton] at h1
      subst h1; decide
  · exact h c hc

theorem getD_mem (P : Bytes) {i : Nat} (h : i < P.length) : P.getD i 0 ∈ P :=
  List.getElem?_mem (getElem?_getD_of_lt P h)

theorem packPos_digit {hi lo : Nat} (h1 : isDigit hi = true) (h2 : isDigit lo = true) :
    OCINumber.packPos hi lo = bsub ((hi - 48) * 10 + (lo - 48)) 1 := by
  simp only [isDigit, decide_eq_true_eq] at h1 h2
  simp only [OCINumber.packPos, bsub, badd, bmul]
  omega

theorem packNeg_digit {hi lo : Nat} (h1 : isDigit hi = true) (h2 : isDigit lo = true) :
    OCINumber.packNeg hi lo = 101 - ((hi - 48) * 10 + (lo - 48)) := by
  simp only [isDigit, decide_eq_true_eq] at h1 h2
  simp only [OCINumber.packNeg, bsub, badd, bmul]
  omega

/-- What `SetString` does on a valid DecimalText with at most 40 digits, for any initial
buffer: it returns; byte 0 keeps its value; byte 1 and the mantissa bytes are as computed by
the source; the bytes after the mantissa keep their values. -/
theorem SetString_spec (n : OCINumber) (t : Bytes) (hv : isDecimalText t = true)
    (hd : digitCount t ≤ 40) :
    ∃ m, n.SetString t = some m ∧
      m.byte 0 = n.byte 0 ∧
      m.byte 1 = (if isNegative t then 255 - (intDigits t + 1) / 2 - 64
        else 128 + (intDigits t + 1) / 2 + 64) ∧
      (∀ k, k < (padEven (digitsOf t)).length / 2 →
        isDigit ((padEven (digitsOf t)).getD (2 * k) 0) = true ∧
        isDigit ((padEven (digitsOf t)).getD (2 * k + 1) 0) = true ∧
        m.byte (2 + k) = (if isNegative t then OCINumber.packNeg else OCINumber.packPos)
          ((padEven (digitsOf t)).getD (2 * k) 0) ((padEven (digitsOf t)).getD (2 * k + 1) 0)) ∧
      (∀ x, 2 + (padEven (digitsOf t)).length / 2 ≤ x → m.byte x = n.byte x) := by
  obtain ⟨ip, fp, h1, h2, h3, ht⟩ := decimalText_shape t hv
  generalize isNegative t = neg at ht
  subst ht
  have hdig := digitsOf_render neg ip fp h2 h3
  have hD : ∀ c ∈ ip ++ fp, isDigit c = true := by
    intro c hc
    rcases List.mem_append.1 hc with h | h
    · exact h2 c h
    · exact h3 c h
  unfold digitCount at hd
  rw [hdig] at hd
  rw [hdig, intDigits_render neg ip fp h1 h2]
  obtain ⟨m, hm, hb0, hb1, hbk, hbx⟩ := SetString_render_spec n neg ip fp h1 h2 h3 hd
  refine ⟨m, hm, hb0, ?_, ?_, hbx⟩
  · exact hb1
  · intro k hk
    refine ⟨?_, ?_, ?_⟩
    · exact padEven_digits _ hD _ (getD_mem _ (by omega))
    · have hev := padEven_even (ip ++ fp)
      exact padEven_digits _ hD _ (getD_mem _ (by omega))
    · exact hbk k hk

/-! ## `SetString` on arbitrary text -/

theorem erase_eq_indexByte (c : Nat) : ∀ l : Bytes,
    l.erase c = if indexByte l c ≥ 0
      then l.take (indexByte l c).toNat ++ l.drop ((indexByte l c).toNat + 1) else l := by
  intro l
  induction l with
  | nil => simp [indexByte]
  | cons b l ih =>
    by_cases hb : b = c
    · subst hb; simp [indexByte]
    · have hbeq : (b == c) = false := by simpa using hb
      rw [List.erase_cons, hbeq]
      simp only [Bool.false_eq_true, if_false, indexByte, if_neg hb]
      by_cases hneg : indexByte l c < 0
      · have h1 : ¬ indexByte l c ≥ 0 := by omega
        rw [if_neg h1] at ih
        rw [if_pos hneg, if_neg (by decide), ih]
      · have h1 : indexByte l c ≥ 0 := by omega
        have h2 : indexByte l c + 1 ≥ 0 := by omega
        have h3 : (indexByte l c + 1).toNat = (indexByte l c).toNat + 1 := by omega
        rw [if_pos h1] at ih
        rw [if_neg hneg, if_pos h2, h3, ih]
        simp

theorem unsignedPart_eq (t : Bytes) :
    (if (!(t.head? == some 45)) = true then t else t.drop 1) = unsignedPart t := by
  unfold unsignedPart isNegative
  cases t.head? == some 45 <;> simp

theorem SetString_eq (n : OCINumber) (t : Bytes) (h : t ≠ []) :
    ∃ e, n.SetString t = (n.store 1 e).bind (fun m =>
      OCINumber.packLoop (padEven (stripText t))
        (if isNegative t then OCINumber.packNeg else OCINumber.packPos)
        (((padEven (stripText t)).length + 1) / 2) 0 2 m) := by
  have hs : (if indexByte (unsignedPart t) 46 ≥ 0
      then (unsignedPart t).take (indexByte (unsignedPart t) 46).toNat
        ++ (unsignedPart t).drop ((indexByte (unsignedPart t) 46).toNat + 1)
      else unsignedPart t) = stripText t := (erase_eq_indexByte 46 (unsignedPart t)).symm
  unfold OCINumber.SetString
  simp only [if_neg h, unsignedPart_eq, hs]
  unfold padEven isNegative
  cases t.head? == some 45
  · exact ⟨_, rfl⟩
  · exact ⟨_, rfl⟩

theorem packLoop_fail (P : Bytes) (pack : Nat → Nat → Nat) :
    ∀ (k i j : Nat) (n : OCINumber), 22 < j + k → j ≤ 22 →
      OCINumber.packLoop P pack k i j n = none := by
  intro k
  induction k with
  | zero => intro i j n h1 h2; omega
  | succ k ih =>
    intro i j n h1 h2
    simp only [OCINumber.packLoop, Option.bind_eq_bind]
    cases P[i]? with
    | none => rfl
    | some hi =>
      cases P[i + 1]? with
      | none => rfl
      | some lo =>
        simp only [Option.some_bind]
        by_cases hj : j < 22
        · obtain ⟨m, hm, _⟩ := store_of_lt n (pack hi lo) hj
          rw [hm, Option.some_bind]
          exact ih (i + 2) (j + 1) m (by omega) (by omega)
        · rw [store_of_ge n _ (by omega)]; rfl

theorem le_padEven_length (d : Bytes) : d.length ≤ (padEven d).length := by
  unfold padEven
  split <;> simp

theorem pack_lt (neg : Bool) (a b : Nat) :
    (if neg = true then OCINumber.packNeg else OCINumber.packPos) a b < 256 := by
  cases neg <;> simp [packPos_lt, packNeg_lt]

/-- On a non-empty text with at most 40 characters after stripping and padding,
`SetString` returns and leaves byte 0 and the bytes after the mantissa as they were. -/
theorem SetString_frame_of_le (n : OCINumber) (t : Bytes) (h : t ≠ [])
    (hlen : (padEven (stripText t)).length ≤ 40) :
    ∃ m, n.SetString t = some m ∧ m.byte 0 = n.byte 0 ∧
      ∀ x, 2 + (padEven (stripText t)).length / 2 ≤ x → m.byte x = n.byte x := by
  obtain ⟨e, he⟩ := SetString_eq n t h
  have hev := padEven_even (stripText t)
  obtain ⟨m1, hs, hb1⟩ := store_of_lt n e (show 1 < 22 by decide)
  obtain ⟨m, hm, hb⟩ := packLoop_ok (padEven (stripText t))
    (if isNegative t then OCINumber.packNeg else OCINumber.packPos) (pack_lt _)
    (((padEven (stripText t)).length + 1) / 2) 0 2 m1 (by omega) (by omega)
  refine ⟨m, by rw [he, hs, Option.some_bind, hm], ?_, ?_⟩
  · rw [hb 0, if_neg (by omega), hb1 0, if_neg (by decide)]
  · intro x hx
    rw [hb x, if_neg (by omega), hb1 x, if_neg (by omega)]

/-- On a non-empty text with more than 40 characters after stripping and padding,
`SetString` fails. -/
theorem SetString_none_of_gt (n : OCINumber) (t : Bytes) (h : t ≠ [])
    (hlen : 40 < (padEven (stripText t)).length) : n.SetString t = none := by
  obtain ⟨e, he⟩ := SetString_eq n t h
  obtain ⟨m1, hs, _⟩ := store_of_lt n e (show 1 < 22 by decide)
  rw [he, hs, Option.some_bind]
  exact packLoop_fail _ _ _ 0 2 m1 (by omega) (by omega)

theorem stripText_render (neg : Bool) (ip fp : Bytes) (h1 : ip ≠ [])
    (h2 : ∀ c ∈ ip, isDigit c = true) : stripText (render neg ip fp) = ip ++ fp := by
  unfold stripText
  rw [unsignedPart_render neg ip fp h1 h2]
  have hdot := dot_not_mem ip h2
  by_cases hf : fp = []
  · simp [hf, List.erase_of_not_mem hdot]
  · simp [hf, List.erase_append_right _ hdot]

theorem stripText_eq_digitsOf (t : Bytes) (hv : isDecimalText t = true) :
    stripText t = digitsOf t := by
  obtain ⟨ip, fp, h1, h2, h3, ht⟩ := decimalText_shape t hv
  generalize isNegative t = neg at ht
  subst ht
  rw [stripText_render neg ip fp h1 h2, digitsOf_render neg ip fp h2 h3]

theorem ne_nil_of_decimalText (t : Bytes) (hv : isDecimalText t = true) : t ≠ [] := by
  intro e
  subst e
  exact Bool.noConfusion hv

theorem padEven_le_iff (d : Bytes) : (padEven d).length ≤ 40 ↔ d.length ≤ 40 := by
  have h1 := padEven_even d
  have h2 := padEven_length_le d
  have h3 := le_padEven_length d
  omega

theorem flatMap_congr_mem (f g : Nat → Bytes) : ∀ l : List Nat,
    (∀ k ∈ l, f k = g k) → l.flatMap f = l.flatMap g := by
  intro l
  induction l with
  | nil => intro _; rfl
  | cons a l ih =>
    intro h
    rw [List.flatMap_cons, List.flatMap_cons, h a (by simp),
      ih (fun k hk => h k (List.mem_cons_of_mem a hk))]

theorem SetString_nil (n : OCINumber) :
    ∃ m, n.SetString [] = some m ∧ m.byte 0 = 255 ∧ ∀ x, x ≠ 0 → m.byte x = n.byte x := by
  obtain ⟨r, hr, hb⟩ := store_of_lt n 255 (show 0 < 22 by decide)
  refine ⟨r, by simp only [OCINumber.SetString, if_true, hr], by rw [hb 0]; rfl, ?_⟩
  intro x hx
  rw [hb x, if_neg hx]

/-! ## The claims -/

set_option maxRecDepth 100000

/-- C1 (round trip, fails on the code). `SetString` never stores the length byte, so on a
zero-valued buffer `String` sees length 0 and returns the empty string for the text
"1234567890123". When the caller stores the length 7 beforehand, the digits come back as
"10325476881028": `SetString` biases each mantissa byte by -1 and `String` removes a bias
of +1. -/
theorem round_trip_loses_digits :
    (OCINumber.zero.SetString (ascii "1234567890123")).bind OCINumber.String = some (ascii "") ∧
    ((OCINumber.ofList [7]).SetString (ascii "1234567890123")).bind OCINumber.String
      = some (ascii "10325476881028") := by
  constructor <;> decide

/-- C2 (NULL round trip). For every initial buffer `n`, `SetString("")` followed by
`String()` returns the empty string; and `String()` returns the empty string for every
buffer `m` whose byte 0 is 0xFF, whatever its other bytes hold. -/
theorem null_round_trip (n m : OCINumber) (h : m.byte 0 = 255) :
    (n.SetString []).bind OCINumber.String = some [] ∧ m.String = some [] := by
  obtain ⟨r, hr, hb⟩ := store_of_lt n 255 (show 0 < 22 by decide)
  have h0 : r.byte 0 = 255 := by rw [hb 0]; rfl
  have hs : n.SetString [] = some r := by simp only [OCINumber.SetString, if_true, hr]
  refine ⟨?_, ?_⟩
  · rw [hs, Option.some_bind, String_eq, if_pos h0]
  · rw [String_eq, if_pos h]

theorem null_round_trip_witness :
    (OCINumber.ofList [255, 7, 9]).byte 0 = 255 ∧
    ((OCINumber.ofList [3, 193, 13]).SetString []).bind OCINumber.String = some [] ∧
    (OCINumber.ofList [255, 7, 9]).String = some [] :=
  ⟨by decide, null_round_trip (OCINumber.ofList [3, 193, 13]) (OCINumber.ofList [255, 7, 9])
    (by decide)⟩

/-- C3 (sign bit, fails on the code). For the text "-5" `SetString` writes the exponent
byte 255 - 1 - 64 = 190 = 0xBE, whose bit 7 is set although the text is negative (the
format comment of the source gives 0x3E). `String` therefore takes its non-negative
branch: on a zero-valued buffer it returns "", and with the length 1 stored beforehand it
returns "50"; neither begins with the minus sign. -/
theorem negative_sign_bit_is_set :
    (OCINumber.zero.SetString (ascii "-5")).map (fun m => m.byte 1) = some 190 ∧
    bit7 190 = true ∧
    (OCINumber.zero.SetString (ascii "-5")).bind OCINumber.String = some (ascii "") ∧
    ((OCINumber.ofList [1]).SetString (ascii "-5")).bind OCINumber.String = some (ascii "50") := by
  refine ⟨?_, ?_, ?_, ?_⟩ <;> decide

/-- C4 (counterexample). The zero-valued buffer has length byte 0, and `String` returns
"-" for it, not "0". -/
theorem String_zero_length_counterexample :
    OCINumber.zero.byte 0 = 0 ∧ OCINumber.zero.String = some (ascii "-") ∧
    OCINumber.zero.String ≠ some (ascii "0") := by
  refine ⟨?_, ?_, ?_⟩ <;> decide

/-- C4 (amended). For every buffer whose length byte is 0, `String` returns the sign alone
with no digit: the empty string when bit 7 of byte 1 is set, and "-" when it is clear. -/
theorem String_zero_length (n : OCINumber) (h : n.byte 0 = 0) :
    n.String = some (if bit7 (n.byte 1) then [] else [45]) := by
  cases hb : bit7 (n.byte 1) with
  | true =>
    rw [String_positive n (by omega) ((bit7_iff n 1).1 hb), h]
    rfl
  | false =>
    rw [String_negative n (by omega) ((bit7_false_iff n 1).1 hb), h]
    rfl

theorem String_zero_length_witness :
    (OCINumber.ofList [0, 193, 13]).byte 0 = 0 ∧
    (OCINumber.ofList [0, 193, 13]).String = some [] :=
  ⟨by decide, String_zero_length (OCINumber.ofList [0, 193, 13]) (by decide)⟩

/-- C5 (digit-by-digit unpack). For every buffer with length `L = n[0] ≤ 20`: when bit 7 of
`n[1]` is set, `String` returns the `2L` characters whose `k`-th pair is `'0'+d/10`,
`'0'+d%10` with `d = n[2+k] - 1`; when it is clear, `String` returns `'-'` followed by the
`2L` characters built the same way from `d = 101 - n[2+k]` (byte arithmetic mod 256). When
the first `L` mantissa bytes lie in 1..100 (bit 7 set) or in 2..101 (bit 7 clear), every
character after the sign is a decimal digit, so no `'.'` is written. -/
theorem String_unpacks (n : OCINumber) (hlen : n.byte 0 ≤ 20) :
    (bit7 (n.byte 1) = true →
      n.String = some ((List.range (n.byte 0)).flatMap
        (fun k => pairOf (bsub (n.byte (2 + k)) 1))) ∧
      ∃ s, n.String = some s ∧ s.length = 2 * n.byte 0 ∧
        ((∀ k, k < n.byte 0 → 1 ≤ n.byte (2 + k) ∧ n.byte (2 + k) ≤ 100) →
          (∀ c ∈ s, isDigit c = true) ∧ 46 ∉ s)) ∧
    (bit7 (n.byte 1) = false →
      n.String = some (45 :: (List.range (n.byte 0)).flatMap
        (fun k => pairOf (bsub 101 (n.byte (2 + k))))) ∧
      ∃ s, n.String = some (45 :: s) ∧ s.length = 2 * n.byte 0 ∧
        ((∀ k, k < n.byte 0 → 2 ≤ n.byte (2 + k) ∧ n.byte (2 + k) ≤ 101) →
          (∀ c ∈ s, isDigit c = true) ∧ 46 ∉ s)) := by
  constructor
  · intro hb
    have hs := String_positive n hlen ((bit7_iff n 1).1 hb)
    refine ⟨hs, _, hs, ?_, ?_⟩
    · rw [flatMap_pair_length (fun k => pairOf (bsub (n.byte (2 + k)) 1)) (fun _ => rfl),
        List.length_range]
    · intro hr
      have hdig : ∀ c ∈ (List.range (n.byte 0)).flatMap
          (fun k => pairOf (bsub (n.byte (2 + k)) 1)), isDigit c = true := by
        intro c hc
        obtain ⟨k, hk, hck⟩ := mem_flatMap_range hc
        have := hr k hk
        exact pairOf_digit (by unfold bsub; omega) hck
      exact ⟨hdig, dot_not_mem _ hdig⟩
  · intro hb
    have hs := String_negative n hlen ((bit7_false_iff n 1).1 hb)
    refine ⟨hs, _, hs, ?_, ?_⟩
    · rw [flatMap_pair_length (fun k => pairOf (bsub 101 (n.byte (2 + k)))) (fun _ => rfl),
        List.length_range]
    · intro hr
      have hdig : ∀ c ∈ (List.range (n.byte 0)).flatMap
          (fun k => pairOf (bsub 101 (n.byte (2 + k)))), isDigit c = true := by
        intro c hc
        obtain ⟨k, hk, hck⟩ := mem_flatMap_range hc
        have := hr k hk
        exact pairOf_digit (by unfold bsub; omega) hck
      exact ⟨hdig, dot_not_mem _ hdig⟩

theorem String_unpacks_witness :
    (OCINumber.ofList [2, 193, 13, 35]).byte 0 ≤ 20 ∧
    (OCINumber.ofList [2, 193, 13, 35]).String = some (ascii "1234") ∧
    (OCINumber.ofList [1, 62, 96]).String = some (ascii "-05") :=
  ⟨by decide,
    ((String_unpacks (OCINumber.ofList [2, 193, 13, 35]) (by decide)).1 (by decide)).1.trans
      (by decide),
    ((String_unpacks (OCINumber.ofList [1, 62, 96]) (by decide)).2 (by decide)).1.trans
      (by decide)⟩

/-- `String` has no result (`none`, the index-out-of-range panic on `n[22]`)
exactly when byte 0 is in 21..254; when byte 0 is in 0..20 or is 0xFF it returns a string. -/
theorem String_none_iff (n : OCINumber) :
    (n.String = none ↔ 21 ≤ n.byte 0 ∧ n.byte 0 ≤ 254) ∧
    (n.byte 0 ≤ 20 ∨ n.byte 0 = 255 → ∃ s, n.String = some s) := by
  have hgood : n.byte 0 ≤ 20 ∨ n.byte 0 = 255 → ∃ s, n.String = some s := by
    rintro (h | h)
    · cases hb : bit7 (n.byte 1) with
      | true => exact ⟨_, String_positive n h ((bit7_iff n 1).1 hb)⟩
      | false => exact ⟨_, String_negative n h ((bit7_false_iff n 1).1 hb)⟩
    · exact ⟨[], by rw [String_eq, if_pos h]⟩
  refine ⟨⟨?_, fun h => String_corrupt n h.1 h.2⟩, hgood⟩
  intro hnone
  by_contra hc
  have hlt := byte_lt n 0
  obtain ⟨s, hs⟩ := hgood (by omega)
  rw [hs] at hnone
  exact Option.noConfusion hnone

/-- C6 (counterexample). For a buffer whose byte 0 is 21, `String()` does not hand back a
CorruptBuffer error: the call ends with the index-out-of-range panic on `n[22]`. -/
theorem String_length_21_panics :
    (OCINumber.ofList [21, 193]).byte 0 = 21 ∧
    (OCINumber.ofList [21, 193]).StringOutcome = Outcome.panicked ∧
    (OCINumber.ofList [21, 193]).StringOutcome ≠ Outcome.decodeError := by
  refine ⟨?_, ?_, ?_⟩ <;> decide

/-- C6 (amended). `String()` fails exactly on a corrupt length, and it fails by panicking:
the call ends with the index-out-of-range panic on `n[22]` exactly when byte 0 is in
21..254, and it never hands back a typed error; when byte 0 is in 0..20 or is 0xFF it
returns a string, every index into the 22-byte buffer and into the 42-byte scratch array
being in range. -/
theorem String_panics_iff_corrupt (n : OCINumber) :
    (n.StringOutcome = Outcome.panicked ↔ 21 ≤ n.byte 0 ∧ n.byte 0 ≤ 254) ∧
    (n.byte 0 ≤ 20 ∨ n.byte 0 = 255 → ∃ s, n.StringOutcome = Outcome.returned s) ∧
    n.StringOutcome ≠ Outcome.decodeError := by
  obtain ⟨hiff, hgood⟩ := String_none_iff n
  unfold OCINumber.StringOutcome
  refine ⟨⟨?_, ?_⟩, ?_, ?_⟩
  · intro h
    apply hiff.1
    cases hs : n.String with
    | none => rfl
    | some s => rw [hs] at h; exact Outcome.noConfusion h
  · intro h
    rw [hiff.2 h]
  · intro h
    obtain ⟨s, hs⟩ := hgood h
    exact ⟨s, by rw [hs]⟩
  · cases n.String with
    | none => exact fun h => Outcome.noConfusion h
    | some s => exact fun h => Outcome.noConfusion h

theorem String_panics_iff_corrupt_witness :
    (OCINumber.ofList [254, 7]).StringOutcome = Outcome.panicked ∧
    ∃ s, (OCINumber.ofList [20, 62]).StringOutcome = Outcome.returned s :=
  ⟨(String_panics_iff_corrupt (OCINumber.ofList [254, 7])).1.2 (by decide),
    (String_panics_iff_corrupt (OCINumber.ofList [20, 62])).2.1 (by decide)⟩

/-- C7 (length byte, fails on the code). `SetString` does not write byte 0 for a
non-empty text: on a zero-valued buffer byte 0 is still 0 after `SetString("12")`
(one mantissa byte) and after `SetString` of a 38-digit text (19 mantissa bytes). -/
theorem SetString_leaves_length_unwritten :
    (OCINumber.zero.SetString (ascii "12")).map (fun m => m.byte 0) = some 0 ∧
    (OCINumber.zero.SetString (ascii "12345678901234567890123456789012345678")).map
      (fun m => (m.byte 0, m.byte 20, m.byte 21)) = some (0, 77, 0) := by
  constructor <;> decide

/-- C8 (exponent byte). For every valid DecimalText with at most 40 digits and every
initial buffer, `SetString` returns and byte 1 is `128 + (dot+1)/2 + 64` when the text is
non-negative and `255 - (dot+1)/2 - 64` when it starts with `'-'`, where `dot` is the
number of digits before the decimal point (all digits when there is no point). -/
theorem SetString_exponent_byte (n : OCINumber) (t : Bytes) (hv : isDecimalText t = true)
    (hd : digitCount t ≤ 40) :
    ∃ m, n.SetString t = some m ∧
      m.byte 1 = (if isNegative t then 255 - (intDigits t + 1) / 2 - 64
        else 128 + (intDigits t + 1) / 2 + 64) := by
  obtain ⟨m, hm, _, h1, _, _⟩ := SetString_spec n t hv hd
  exact ⟨m, hm, h1⟩

theorem SetString_exponent_byte_witness :
    isDecimalText (ascii "-12.5") = true ∧ digitCount (ascii "-12.5") ≤ 40 ∧
    ∃ m, OCINumber.zero.SetString (ascii "-12.5") = some m ∧ m.byte 1 = 190 :=
  ⟨by decide, by decide,
    SetString_exponent_byte OCINumber.zero (ascii "-12.5") (by decide) (by decide)⟩

/-- C9 (mantissa packing). For every valid DecimalText with at most 40 digits and every
initial buffer, `SetString` returns and the `k`-th mantissa byte (index `2+k`) is
`(hi-'0')*10 + (lo-'0') - 1` (mod 256) for a non-negative text and
`101 - ((hi-'0')*10 + (lo-'0'))` for a negative one, where `(hi, lo)` is the `k`-th pair
of the digit stream right-padded with `'0'` to even length. -/
theorem SetString_mantissa (n : OCINumber) (t : Bytes) (hv : isDecimalText t = true)
    (hd : digitCount t ≤ 40) :
    ∃ m, n.SetString t = some m ∧
      ∀ k, k < (padEven (digitsOf t)).length / 2 →
        m.byte (2 + k) =
          if isNegative t then
            101 - (((padEven (digitsOf t)).getD (2 * k) 0 - 48) * 10
              + ((padEven (digitsOf t)).getD (2 * k + 1) 0 - 48))
          else
            bsub (((padEven (digitsOf t)).getD (2 * k) 0 - 48) * 10
              + ((padEven (digitsOf t)).getD (2 * k + 1) 0 - 48)) 1 := by
  obtain ⟨m, hm, _, _, hk, _⟩ := SetString_spec n t hv hd
  refine ⟨m, hm, ?_⟩
  intro k hlt
  obtain ⟨h1, h2, h3⟩ := hk k hlt
  rw [h3]
  cases isNegative t with
  | true => simpa using packNeg_digit h1 h2
  | false => simpa using packPos_digit h1 h2

theorem SetString_mantissa_witness :
    isDecimalText (ascii "-12.5") = true ∧ digitCount (ascii "-12.5") ≤ 40 ∧
    ∃ m, OCINumber.zero.SetString (ascii "-12.5") = some m ∧
      ∀ k, k < 2 → m.byte (2 + k) = 101 - (((ascii "1250").getD (2 * k) 0 - 48) * 10
        + ((ascii "1250").getD (2 * k + 1) 0 - 48)) :=
  ⟨by decide, by decide,
    SetString_mantissa OCINumber.zero (ascii "-12.5") (by decide) (by decide)⟩

/-- C10 (padding and value, fails on the code). For the text "5" `SetString` packs the
pair "50" with the base-100 exponent (1+1)/2 = 1, which denotes 0.50 * 100 = 50, not 5
(and 48 when the mantissa byte is read with the bias of `String`); for "123" it packs
"12", "30" with the exponent 2, which denotes 1230, not 123. -/
theorem padding_changes_value :
    (OCINumber.zero.SetString (ascii "5")).map (fun m => packedValue m true 1) = some 50 ∧
    (OCINumber.zero.SetString (ascii "5")).map
      (fun m => numberValue true (packedExponent m true) (storedDigits m true 1)) = some 48 ∧
    decimalValue (ascii "5") = 5 ∧
    (OCINumber.zero.SetString (ascii "123")).map (fun m => packedValue m true 2) = some 1230 ∧
    decimalValue (ascii "123") = 123 := by
  have h5 : OCINumber.zero.SetString (ascii "5") = some (OCINumber.ofList [0, 193, 49]) := by
    decide
  have h123 : OCINumber.zero.SetString (ascii "123")
      = some (OCINumber.ofList [0, 194, 11, 29]) := by decide
  have d5 : packedDigits (OCINumber.ofList [0, 193, 49]) true 1 = [50] := by decide
  have r5 : storedDigits (OCINumber.ofList [0, 193, 49]) true 1 = [48] := by decide
  have e5 : packedExponent (OCINumber.ofList [0, 193, 49]) true = 1 := by decide
  have d123 : packedDigits (OCINumber.ofList [0, 194, 11, 29]) true 2 = [12, 30] := by decide
  have e123 : packedExponent (OCINumber.ofList [0, 194, 11, 29]) true = 2 := by decide
  have n5 : natOfDigits (digitsOf (ascii "5")) = 5 := by decide
  have f5 : fracDigits (ascii "5") = 0 := by decide
  have s5 : isNegative (ascii "5") = false := by decide
  have n123 : natOfDigits (digitsOf (ascii "123")) = 123 := by decide
  have f123 : fracDigits (ascii "123") = 0 := by decide
  have s123 : isNegative (ascii "123") = false := by decide
  refine ⟨?_, ?_, ?_, ?_, ?_⟩
  · rw [h5, Option.map_some', packedValue, d5, e5]
    norm_num [numberValue]
  · rw [h5, Option.map_some', r5, e5]
    norm_num [numberValue]
  · rw [decimalValue, n5, f5, s5]
    norm_num
  · rw [h123, Option.map_some', packedValue, d123, e123]
    norm_num [numberValue]
  · rw [decimalValue, n123, f123, s123]
    norm_num

/-- C11 (counterexample). The texts "1a" (a character that is no digit), "1.2.3" (two
decimal points) and "-" (no digit) are not valid DecimalText, and `SetString` returns a
written buffer for each of them. -/
theorem SetString_accepts_malformed_counterexample :
    isDecimalText (ascii "1a") = false ∧
    OCINumber.zero.SetString (ascii "1a") = some (OCINumber.ofList [0, 193, 58]) ∧
    isDecimalText (ascii "1.2.3") = false ∧
    OCINumber.zero.SetString (ascii "1.2.3") = some (OCINumber.ofList [0, 193, 11, 238]) ∧
    isDecimalText (ascii "-") = false ∧
    OCINumber.zero.SetString (ascii "-") = some (OCINumber.ofList [0, 191]) := by
  refine ⟨?_, ?_, ?_, ?_, ?_, ?_⟩ <;> decide

/-- C11 (amended). `SetString` does not validate its text: for every non-empty text that is
not a valid DecimalText it returns a written buffer when the text left after stripping one
leading `'-'` and the first `'.'` has at most 40 characters, and it fails (the
index-out-of-range panic) only when that text has more than 40 characters. -/
theorem SetString_accepts_malformed (n : OCINumber) (t : Bytes) (hne : t ≠ [])
    (_hbad : isDecimalText t = false) :
    ((stripText t).length ≤ 40 → ∃ m, n.SetString t = some m) ∧
    (40 < (stripText t).length → n.SetString t = none) := by
  constructor
  · intro h
    obtain ⟨m, hm, _⟩ := SetString_frame_of_le n t hne ((padEven_le_iff _).2 h)
    exact ⟨m, hm⟩
  · intro h
    have h3 := le_padEven_length (stripText t)
    exact SetString_none_of_gt n t hne (by omega)

theorem SetString_accepts_malformed_witness :
    ascii "1.2.3" ≠ [] ∧ isDecimalText (ascii "1.2.3") = false ∧
    (stripText (ascii "1.2.3")).length ≤ 40 ∧
    ∃ m, OCINumber.zero.SetString (ascii "1.2.3") = some m :=
  ⟨by decide, by decide, by decide,
    (SetString_accepts_malformed OCINumber.zero (ascii "1.2.3") (by decide) (by decide)).1
      (by decide)⟩

/-- C12 (counterexample). A valid DecimalText with 39 digits is written without any error:
`SetString` fills all 20 mantissa bytes. -/
theorem SetString_39_digits_counterexample :
    isDecimalText (ascii "123456789012345678901234567890123456789") = true ∧
    digitCount (ascii "123456789012345678901234567890123456789") = 39 ∧
    OCINumber.zero.SetString (ascii "123456789012345678901234567890123456789")
      = some (OCINumber.ofList [0, 212, 11, 33, 55, 77, 89, 11, 33, 55, 77, 89, 11, 33, 55, 77,
          89, 11, 33, 55, 77, 89]) := by
  refine ⟨?_, ?_, ?_⟩ <;> decide

/-- C12 (amended). For every valid DecimalText, `SetString` fails (the index-out-of-range
panic on `n[22]`) exactly when the text has 41 or more digits; a text with 39 or 40 digits
is written into 20 mantissa bytes without any error. -/
theorem SetString_overflow_iff (n : OCINumber) (t : Bytes) (hv : isDecimalText t = true) :
    (n.SetString t = none ↔ 41 ≤ digitCount t) ∧
    (digitCount t ≤ 40 → ∃ m, n.SetString t = some m) := by
  have hne := ne_nil_of_decimalText t hv
  have hstrip := stripText_eq_digitsOf t hv
  have hgood : digitCount t ≤ 40 → ∃ m, n.SetString t = some m := by
    intro h
    obtain ⟨m, hm, _⟩ := SetString_spec n t hv h
    exact ⟨m, hm⟩
  refine ⟨⟨?_, ?_⟩, hgood⟩
  · intro hnone
    by_contra hc
    obtain ⟨m, hm⟩ := hgood (by omega)
    rw [hm] at hnone
    exact Option.noConfusion hnone
  · intro h
    have h3 := le_padEven_length (stripText t)
    unfold digitCount at h
    rw [← hstrip] at h
    exact SetString_none_of_gt n t hne (by omega)

theorem SetString_overflow_iff_witness :
    isDecimalText (ascii "12345678901234567890123456789012345678901") = true ∧
    41 ≤ digitCount (ascii "12345678901234567890123456789012345678901") ∧
    OCINumber.zero.SetString (ascii "12345678901234567890123456789012345678901") = none :=
  ⟨by decide, by decide,
    (SetString_overflow_iff OCINumber.zero (ascii "12345678901234567890123456789012345678901")
      (by decide)).1.2 (by decide)⟩

/-- C13 (indexing stays in range up to 20 mantissa bytes). For every initial buffer and
every string, valid or not, `SetString` returns (every read of the text and every write to
the 22-byte buffer is in range) if and only if the text left after stripping one leading
`'-'` and the first `'.'` and right-padding to even length has at most 40 characters; when
the stripped text has 41 or more characters it fails. -/
theorem SetString_in_range_iff (n : OCINumber) (s : Bytes) :
    ((∃ m, n.SetString s = some m) ↔ (padEven (stripText s)).length ≤ 40) ∧
    (41 ≤ (stripText s).length → n.SetString s = none) := by
  by_cases hs : s = []
  · subst hs
    obtain ⟨m, hm, _⟩ := SetString_nil n
    refine ⟨⟨fun _ => by decide, fun _ => ⟨m, hm⟩⟩, ?_⟩
    intro h
    exact absurd h (by decide)
  · refine ⟨⟨?_, ?_⟩, ?_⟩
    · rintro ⟨m, hm⟩
      by_contra hc
      rw [SetString_none_of_gt n s hs (by omega)] at hm
      exact Option.noConfusion hm
    · intro h
      obtain ⟨m, hm, _⟩ := SetString_frame_of_le n s hs h
      exact ⟨m, hm⟩
    · intro h
      have h3 := le_padEven_length (stripText s)
      exact SetString_none_of_gt n s hs (by omega)

theorem SetString_in_range_iff_witness :
    41 ≤ (stripText (ascii "-1234567890123456789012345678901234567890.1")).length ∧
    OCINumber.zero.SetString (ascii "-1234567890123456789012345678901234567890.1") = none ∧
    ∃ m, OCINumber.zero.SetString (ascii "-1x.") = some m :=
  ⟨by decide,
    (SetString_in_range_iff OCINumber.zero
      (ascii "-1234567890123456789012345678901234567890.1")).2 (by decide),
    (SetString_in_range_iff OCINumber.zero (ascii "-1x.")).1.2 (by decide)⟩

/-- C14 (mantissa bias, fails on the code). For the valid non-negative text "05", whose only
base-100 digit is 5, `SetString` writes the mantissa byte 4 (digit minus 1), not 6; for
"12" it writes 11, not 13; and for "00" it writes 255, which is outside 1..100. -/
theorem mantissa_bias_is_minus_one :
    isDecimalText (ascii "05") = true ∧
    (OCINumber.zero.SetString (ascii "05")).map (fun m => m.byte 2) = some 4 ∧
    (OCINumber.zero.SetString (ascii "12")).map (fun m => m.byte 2) = some 11 ∧
    isDecimalText (ascii "00") = true ∧
    (OCINumber.zero.SetString (ascii "00")).map (fun m => m.byte 2) = some 255 := by
  refine ⟨?_, ?_, ?_, ?_, ?_⟩ <;> decide

/-- C15 (negative exponent, fails on the code). For the text "5" `SetString` writes the
exponent byte 193, whose complement is 255 - 193 = 62 = 0x3E; for "-5" it writes
190 = 0xBE, not 62. -/
theorem negative_exponent_not_complement :
    (OCINumber.zero.SetString (ascii "5")).map (fun m => m.byte 1) = some 193 ∧
    (OCINumber.zero.SetString (ascii "-5")).map (fun m => m.byte 1) = some 190 ∧
    255 - 193 = 62 ∧
    (OCINumber.zero.SetString (ascii "-5")).map (fun m => m.byte 1) ≠ some (255 - 193) := by
  refine ⟨?_, ?_, ?_, ?_⟩ <;> decide

/-- C16 (decode ignores unused bytes). For every two buffers `a` and `b` with the same
length byte `L ≤ 20` (hence not NULL) that agree on bytes `0..L+1`, `String` returns the
same string for both; bytes `L+2..21` never influence the result. -/
theorem String_ignores_unused (a b : OCINumber) (hlen : a.byte 0 ≤ 20)
    (hagree : ∀ x, x ≤ a.byte 0 + 1 → a.byte x = b.byte x) :
    a.String = b.String ∧ ∃ s, a.String = some s := by
  have h0 : b.byte 0 = a.byte 0 := (hagree 0 (by omega)).symm
  have h1 : b.byte 1 = a.byte 1 := (hagree 1 (by omega)).symm
  by_cases hp : 128 ≤ a.byte 1
  · rw [String_positive a hlen hp, String_positive b (by omega) (by omega), h0]
    refine ⟨?_, _, rfl⟩
    congr 1
    apply flatMap_congr_mem
    intro k hk
    rw [hagree (2 + k) (by have := List.mem_range.1 hk; omega)]
  · rw [String_negative a hlen (by omega), String_negative b (by omega) (by omega), h0]
    refine ⟨?_, _, rfl⟩
    congr 2
    apply flatMap_congr_mem
    intro k hk
    rw [hagree (2 + k) (by have := List.mem_range.1 hk; omega)]

theorem String_ignores_unused_witness :
    (OCINumber.ofList [2, 193, 13, 35, 7, 7, 7]).byte 0 ≤ 20 ∧
    (OCINumber.ofList [2, 193, 13, 35, 7, 7, 7]).String
      = (OCINumber.ofList [2, 193, 13, 35, 0, 99, 0, 0, 0, 0, 0, 0, 0, 0, 0, 0, 0, 0, 0, 0, 0,
          255]).String :=
  ⟨by decide,
    (String_ignores_unused (OCINumber.ofList [2, 193, 13, 35, 7, 7, 7])
      (OCINumber.ofList [2, 193, 13, 35, 0, 99, 0, 0, 0, 0, 0, 0, 0, 0, 0, 0, 0, 0, 0, 0, 0,
        255]) (by decide) (by decide)).1⟩

/-- C17 (frame of `SetString`). For every initial buffer, `SetString("")` returns and
changes only byte 0, to 0xFF. For every non-empty text whose stripped and padded length
`2m` is at most 40, `SetString` returns and leaves byte 0 and bytes `m+2..21` exactly as
they were, so it changes at most byte 1 and bytes `2..m+1`. For a valid DecimalText the
stripped text is its digit stream. -/
theorem SetString_frame (n : OCINumber) (t : Bytes) :
    (∃ m, n.SetString [] = some m ∧ m.byte 0 = 255 ∧ ∀ x, x ≠ 0 → m.byte x = n.byte x) ∧
    (t ≠ [] → (padEven (stripText t)).length ≤ 40 →
      ∃ m, n.SetString t = some m ∧ m.byte 0 = n.byte 0 ∧
        ∀ x, (padEven (stripText t)).length / 2 + 2 ≤ x → m.byte x = n.byte x) ∧
    (isDecimalText t = true → stripText t = digitsOf t) := by
  refine ⟨SetString_nil n, ?_, stripText_eq_digitsOf t⟩
  intro hne hlen
  obtain ⟨m, hm, h0, hx⟩ := SetString_frame_of_le n t hne hlen
  exact ⟨m, hm, h0, fun x h => hx x (by omega)⟩

theorem SetString_frame_witness :
    ascii "-12.5" ≠ [] ∧ (padEven (stripText (ascii "-12.5"))).length ≤ 40 ∧
    ∃ m, (OCINumber.ofList (List.replicate 22 9)).SetString (ascii "-12.5") = some m ∧
      m.byte 0 = (OCINumber.ofList (List.replicate 22 9)).byte 0 ∧
      ∀ x, (padEven (stripText (ascii "-12.5"))).length / 2 + 2 ≤ x →
        m.byte x = (OCINumber.ofList (List.replicate 22 9)).byte x :=
  ⟨by decide, by decide,
    (SetString_frame (OCINumber.ofList (List.replicate 22 9)) (ascii "-12.5")).2.1
      (by decide) (by decide)⟩

/-- C18 (duration decomposition, fails on the code). For `d = 25h` `durationAsDays` returns
1 day, -215 hours and 0 minutes, seconds and milliseconds: the day is subtracted as
`days * time.Hour * 240` instead of `days * time.Hour * 24`. The components add up to
-191h, not to 25h. -/
theorem durationAsDays_25h :
    durationAsDays (25 * time.Hour) = (1, -215, 0, 0, 0) ∧
    componentsTotal (durationAsDays (25 * time.Hour)) = -191 * time.Hour ∧
    truncMillisecond (25 * time.Hour) = 25 * time.Hour ∧
    componentsTotal (durationAsDays (25 * time.Hour)) ≠ truncMillisecond (25 * time.Hour) := by
  refine ⟨?_, ?_, ?_, ?_⟩ <;> decide

end Gocilib
